import Mathlib

/-
Verification of the orbit user-space process-instrumentation engine and of two
GUI data-view components, against a shallow embedding in Lean 4.

The instrumentation engine itself (Attach.cpp, RegisterState.cpp,
AccessTraceesMemory.cpp, AllocateInTracee.cpp of src/UserSpaceInstrumentation)
is only declared in the repository snapshot (its CMakeLists.txt lists the
files); the operations are therefore modelled from the specification's own
words, as noted in each doc comment.  The data-view components
(PresetsDataView.cpp, CaptureViewElement) are embedded directly from their
sources.
-/

namespace Orbit

/-! ## Tracee memory

Modelled from the spec: `TraceeMemoryAccessor` reads/writes arbitrary byte
ranges of the target's address space; the underlying transfer primitive
operates at machine-word (8 byte) granularity. -/

/-- The tracee address space: a byte value for every mapped address. -/
def Mem : Type := Nat → Option Nat

/-- Result of `Write`: complete, a committed prefix of the given byte count,
or an error with nothing transferred. -/
inductive WStatus where
  | ok
  | partialWrite (k : Nat)
  | error
deriving DecidableEq

/-- Result of `Read`: all bytes, the bytes read before a failure, or an error
with nothing read. -/
inductive RStatus where
  | ok (bs : List Nat)
  | partialRead (bs : List Nat)
  | error
deriving DecidableEq

/-- Modelled from the spec: the word-granular peek primitive reads `n`
consecutive bytes, failing if any is unmapped. -/
def peekBytes (m : Mem) (a : Nat) : Nat → Option (List Nat)
  | 0 => some []
  | n + 1 =>
    match m a, peekBytes m (a + 1) n with
    | some b, some bs => some (b :: bs)
    | _, _ => none

/-- Modelled from the spec: one machine word read (8 bytes). -/
def peekWord (m : Mem) (a : Nat) : Option (List Nat) :=
  peekBytes m a 8

/-- Store a byte sequence at consecutive addresses. -/
def storeBytes : Mem → Nat → List Nat → Mem
  | m, _, [] => m
  | m, a, b :: bs => storeBytes (fun x => if x = a then some b else m x) (a + 1) bs

/-- Modelled from the spec: one machine word write; fails when the word
touches unmapped memory, in which case nothing changes. -/
def pokeWord (m : Mem) (a : Nat) (w : List Nat) : Option Mem :=
  match peekWord m a with
  | none => none
  | some _ => some (storeBytes m a w)

/-- Modelled from the spec: the `Write` transfer loop.  Full words are poked
one at a time; a trailing partial word is produced by reading the existing
word, overlaying only the supplied bytes, and writing the merged word back.
On a failed word transfer the memory reached so far and the exact committed
byte count are reported.  The first argument is recursion fuel (one unit per
word); callers pass the byte count, which always suffices. -/
def writeBytesF : Nat → Mem → Nat → List Nat → Nat → Mem × WStatus
  | _, m, _, [], _ => (m, .ok)
  | 0, m, _, _ :: _, w => (m, .partialWrite w)
  | f + 1, m, a, b :: bs, w =>
    if 8 ≤ (b :: bs).length then
      match pokeWord m a ((b :: bs).take 8) with
      | none => (m, .partialWrite w)
      | some m1 => writeBytesF f m1 (a + 8) ((b :: bs).drop 8) (w + 8)
    else
      match peekWord m a with
      | none => (m, .partialWrite w)
      | some w0 =>
        match pokeWord m a ((b :: bs) ++ w0.drop (b :: bs).length) with
        | none => (m, .partialWrite w)
        | some m1 => (m1, .ok)

/-- Modelled from the spec: write a byte sequence into tracee memory. -/
def writeBytes (m : Mem) (a : Nat) (bs : List Nat) : Mem × WStatus :=
  writeBytesF bs.length m a bs 0

/-- Modelled from the spec: the `Read` transfer loop.  Words are peeked one
at a time; if a peek fails partway, everything read so far is returned
tagged as partial rather than silently truncated or zero-filled.  The first
argument is recursion fuel; callers pass the byte count, which suffices. -/
def readBytesF : Nat → Mem → Nat → Nat → List Nat → RStatus
  | _, _, _, 0, acc => .ok acc
  | 0, _, _, _ + 1, _ => .error
  | f + 1, m, a, n + 1, acc =>
    match peekWord m a with
    | none => if acc = [] then .error else .partialRead acc
    | some w =>
      if n + 1 < 8 then .ok (acc ++ w.take (n + 1))
      else readBytesF f m (a + 8) (n + 1 - 8) (acc ++ w)

/-- Modelled from the spec: read `n` bytes of tracee memory. -/
def readBytes (m : Mem) (a : Nat) (n : Nat) : RStatus :=
  readBytesF n m a n []

/-! ## Registers, threads, sessions

Modelled from the spec: `RegisterState` captures/mutates the CPU register
file of one stopped thread; `ProcessAttacher` owns the session handle. -/

/-- Modelled from the spec: the full register file of one thread — the
architecture's return-value register, the remaining general-purpose file,
the floating/vector file, the instruction pointer and the stack pointer. -/
structure RegisterSet where
  retReg : Nat
  gp : Nat → Nat
  fp : Nat → Nat
  rip : Nat
  rsp : Nat

/-- Modelled from the spec: one tracee thread — its register file and stop
status. -/
structure ThreadSt where
  regs : RegisterSet
  stopped : Bool

/-- The error taxonomy of the spec. -/
inductive Err where
  | permissionDenied
  | alreadyTraced
  | processGone
  | attachTimeout
  | hung
  | allocationFailed
  | registerRestoreFailed
  | notStopped
  | sessionUnusable
  | callFailed
deriving DecidableEq

/-- Modelled from the spec: a session handle over an attached tracee.
`usable` is cleared when `Apply` reports `RegisterRestoreFailed`
(session-fatal).  `program` gives the deterministic return value of the
function at each address when called with given arguments; `clobber` is the
register junk a remote call leaves outside the return-value register;
`applyFaultAt` tells whether the k-th hardware register write fails. -/
structure Session where
  attached : Bool
  usable : Bool
  threads : Nat → Option ThreadSt
  mem : Mem
  program : Nat → List Nat → Nat
  clobber : RegisterSet
  applyFaultAt : Nat → Bool
  opCount : Nat
  nextFree : Nat

/-- Modelled from the spec: `Capture(session, tid)` reads the full register
file of a stopped thread; fails with `NotStopped` if the thread is not
currently stopped. -/
def Capture (s : Session) (tid : Nat) : Except Err RegisterSet :=
  if s.usable then
    match s.threads tid with
    | none => .error .processGone
    | some th => if th.stopped then .ok th.regs else .error .notStopped
  else .error .sessionUnusable

/-- Modelled from the spec: `Apply(session, tid, regs)` writes every register
field; a failure partway leaves the thread's registers in an undefined state
(modelled by `clobber`) and is reported as `RegisterRestoreFailed`, which
invalidates the whole session. -/
def Apply (s : Session) (tid : Nat) (r : RegisterSet) : Session × Except Err Unit :=
  if s.usable then
    match s.threads tid with
    | none => (s, .error .processGone)
    | some th =>
      if th.stopped then
        if s.applyFaultAt s.opCount then
          ({ s with
              usable := false
              opCount := s.opCount + 1
              threads := fun t => if t = tid then some { th with regs := s.clobber }
                                  else s.threads t },
           .error .registerRestoreFailed)
        else
          ({ s with
              opCount := s.opCount + 1
              threads := fun t => if t = tid then some { th with regs := r }
                                  else s.threads t },
           .ok ())
      else (s, .error .notStopped)
  else (s, .error .sessionUnusable)

/-- Modelled from the spec: derive from `base` a register set that invokes
`function_address` with `args` per the calling convention — the first
integer arguments in designated registers, the stack pointer adjusted and
aligned, the instruction pointer at the function. -/
def BuildCallRegisters (base : RegisterSet) (fa : Nat) (args : List Nat) : RegisterSet :=
  { retReg := base.retReg,
    gp := fun i => if i < 6 then args.getD i (base.gp i) else base.gp i,
    fp := base.fp,
    rip := fa,
    rsp := ((base.rsp - 8 * args.length) / 16) * 16 }

/-- Modelled from the spec: the remote-call protocol — capture the original
registers, apply call registers, resume only `tid` until the trap at the
sentinel return address (the called function runs deterministically, leaving
its result in the return-value register and clobbering the rest), capture
the result, restore the original set verbatim, and report the return-value
register.  A failed restore escalates to `RegisterRestoreFailed`. -/
def ExecuteInTracee (s : Session) (tid : Nat) (fa : Nat) (args : List Nat) :
    Session × Except Err Nat :=
  match Capture s tid with
  | .error e => (s, .error e)
  | .ok original =>
    let callRegs := BuildCallRegisters original fa args
    match Apply s tid callRegs with
    | (s1, .error e) => (s1, .error e)
    | (s1, .ok _) =>
      let retVal := s1.program fa args
      let s2 := { s1 with
        threads := fun t =>
          if t = tid then
            (s1.threads t).map fun th => { th with regs := { s1.clobber with retReg := retVal } }
          else s1.threads t }
      match Capture s2 tid with
      | .error e => (s2, .error e)
      | .ok resultRegs =>
        match Apply s2 tid original with
        | (s3, .error e) => (s3, .error e)
        | (s3, .ok _) => (s3, .ok resultRegs.retReg)

/-- The target page size. -/
def pageSize : Nat := 4096

/-- Round a size up to whole pages. -/
def pageCeil (size : Nat) : Nat :=
  pageSize * ((size + pageSize - 1) / pageSize)

/-- Modelled from the spec: `AllocateInTracee` performs a remote call to the
memory-mapping entry point; on success a fresh page-aligned region becomes
mapped and its base address is returned; a sentinel return is
`AllocationFailed`. -/
def AllocateInTracee (s : Session) (size prot : Nat) : Session × Except Err Nat :=
  if s.usable then
    if size = 0 then (s, .error .allocationFailed)
    else
      let base := s.nextFree
      let len := pageCeil size
      ({ s with
          mem := fun x => if base ≤ x ∧ x < base + len then some 0 else s.mem x
          nextFree := base + len },
       .ok base)
  else (s, .error .sessionUnusable)

/-- Modelled from the spec: `FreeInTracee` performs a remote call to the
matching unmap entry point; the region becomes unmapped. -/
def FreeInTracee (s : Session) (a n : Nat) : Session × Except Err Unit :=
  if s.usable then
    ({ s with mem := fun x => if a ≤ x ∧ x < a + n then none else s.mem x }, .ok ())
  else (s, .error .sessionUnusable)

/-- Modelled from the spec: `Write(session, address, bytes)` over the
word-granular transfer loop. -/
def Write (s : Session) (a : Nat) (bs : List Nat) : Session × WStatus :=
  if s.usable then
    let r := writeBytes s.mem a bs
    ({ s with mem := r.1 }, r.2)
  else (s, .error)

/-- Modelled from the spec: `Read(session, address, length)` over the
word-granular transfer loop. -/
def Read (s : Session) (a n : Nat) : RStatus :=
  if s.usable then readBytes s.mem a n else .error

/-- Result of `DetachAndContinue`: a detach that resumed the threads, or the
explicit already-detached no-op result.  The operation never errors. -/
inductive DetachRes where
  | detached
  | alreadyDetached
deriving DecidableEq

/-- Modelled from the spec: `DetachAndContinue` resumes and detaches every
still-present thread (swallowing `ProcessGone`); calling it on an
already-detached session is a no-op returning an explicit already-detached
result, never an error. -/
def DetachAndContinue (s : Session) : Session × DetachRes :=
  if s.attached then
    ({ s with attached := false, threads := fun _ => none }, .detached)
  else (s, .alreadyDetached)

/-! ## Attaching -/

/-- Modelled from the spec: the observable behaviour of the target process —
the live thread set at each enumeration instant, the initial registers, the
memory, and the deterministic function semantics used by remote calls. -/
structure TargetEnv where
  live : Nat → List Nat
  initRegs : Nat → RegisterSet
  mem : Mem
  program : Nat → List Nat → Nat
  clobber : RegisterSet
  applyFaultAt : Nat → Bool

/-- Modelled from the spec: the attach fixed-point loop — re-enumerate,
attach to any new thread, drop bookkeeping for any vanished thread, until a
fixed point is reached (stable set, all attached) or the bounded retry count
is exhausted, which fails with `AttachTimeout`. -/
def attachLoop (live : Nat → List Nat) : List Nat → Nat → Nat → Except Err (List Nat)
  | _, _, 0 => .error .attachTimeout
  | attached, k, b + 1 =>
    let cur := live k
    let fresh := cur.filter fun t => decide (t ∉ attached)
    let gone := attached.filter fun t => decide (t ∉ cur)
    if fresh = [] ∧ gone = [] then .ok attached
    else attachLoop live ((attached.filter fun t => decide (t ∈ cur)) ++ fresh) (k + 1) b

/-- Modelled from the spec: `AttachAndStop(pid)` runs the attach fixed-point
loop with the given retry budget and, on success, produces a session whose
threads are exactly the stable set, all attached and stopped. -/
def AttachAndStop (env : TargetEnv) (budget : Nat) : Except Err Session :=
  match attachLoop env.live [] 0 budget with
  | .error e => .error e
  | .ok ts =>
    .ok { attached := true
          usable := true
          threads := fun t =>
            if t ∈ ts then some { regs := env.initRegs t, stopped := true } else none
          mem := env.mem
          program := env.program
          clobber := env.clobber
          applyFaultAt := env.applyFaultAt
          opCount := 0
          nextFree := 0 }

/-! ## The operations a session supports, as one universe

Used to express that a session invalidated by `RegisterRestoreFailed` never
again completes any operation successfully. -/

/-- Success test for `Except` results. -/
def isOkE {α : Type} : Except Err α → Bool
  | .ok _ => true
  | .error _ => false

/-- Success test for `Write` results. -/
def isOkW : WStatus → Bool
  | .ok => true
  | _ => false

/-- Success test for `Read` results. -/
def isOkR : RStatus → Bool
  | .ok _ => true
  | _ => false

/-- One session-level operation of the engine's public interface. -/
inductive TraceeOp where
  | captureOp (tid : Nat)
  | applyOp (tid : Nat) (r : RegisterSet)
  | readOp (a n : Nat)
  | writeOp (a : Nat) (bs : List Nat)
  | execOp (tid fa : Nat) (args : List Nat)
  | allocOp (size prot : Nat)
  | freeOp (a n : Nat)

/-- Run one operation, returning the updated session and whether it
succeeded. -/
def runOp (s : Session) : TraceeOp → Session × Bool
  | .captureOp tid => (s, isOkE (Capture s tid))
  | .applyOp tid r => ((Apply s tid r).1, isOkE (Apply s tid r).2)
  | .readOp a n => (s, isOkR (Read s a n))
  | .writeOp a bs => ((Write s a bs).1, isOkW (Write s a bs).2)
  | .execOp tid fa args =>
    ((ExecuteInTracee s tid fa args).1, isOkE (ExecuteInTracee s tid fa args).2)
  | .allocOp size prot =>
    ((AllocateInTracee s size prot).1, isOkE (AllocateInTracee s size prot).2)
  | .freeOp a n => ((FreeInTracee s a n).1, isOkE (FreeInTracee s a n).2)

/-- Run a sequence of operations, collecting each one's success flag. -/
def runTrace (s : Session) : List TraceeOp → List Bool
  | [] => []
  | op :: ops => (runOp s op).2 :: runTrace (runOp s op).1 ops

/-! ## Concrete sample inputs used by the witnesses -/

/-- A sample register file. -/
def regs0 : RegisterSet :=
  { retReg := 0, gp := fun _ => 0, fp := fun _ => 0, rip := 0, rsp := 1024 }

/-- A sample clobber pattern distinct from `regs0` in every field. -/
def clob0 : RegisterSet :=
  { retReg := 7, gp := fun _ => 1, fp := fun _ => 2, rip := 3, rsp := 4 }

/-- A sample healthy session: one stopped thread 0, empty memory, every
function returning 42, no register-write faults. -/
def sess0 : Session :=
  { attached := true
    usable := true
    threads := fun t => if t = 0 then some { regs := regs0, stopped := true } else none
    mem := fun _ => none
    program := fun _ _ => 42
    clobber := clob0
    applyFaultAt := fun _ => false
    opCount := 0
    nextFree := 0 }

/-- A session whose next register write fails at the hardware level. -/
def sessFault : Session :=
  { sess0 with applyFaultAt := fun _ => true }

/-- A session with exactly the first word of memory mapped. -/
def sessMem8 : Session :=
  { sess0 with mem := fun x => if x < 8 then some x else none }

end Orbit

namespace OrbitGl

/-! ## PresetsDataView (src/OrbitGl/PresetsDataView.cpp)

Strings are embedded as `List Char`. -/

/-- Byte-wise lowercasing, as `ToLower` from CoreUtils. -/
def toLowerL (s : List Char) : List Char :=
  s.map Char.toLower

/-- Whether `t` stands at the front of `s`. -/
def hasPre : List Char → List Char → Bool
  | _, [] => true
  | [], _ :: _ => false
  | a :: s, b :: t => a = b && hasPre s t

/-- Whether `t` occurs somewhere in `s`, as `std::string::find != npos`. -/
def findSub : List Char → List Char → Bool
  | s, t =>
    if hasPre s t then true
    else
      match s with
      | [] => false
      | _ :: s1 => findSub s1 t

/-- Split at every space character, keeping empty tokens, as
`absl::StrSplit(s, ' ')`. -/
def splitSp : List Char → List (List Char)
  | [] => [[]]
  | c :: s =>
    match splitSp s with
    | [] => [[]]
    | t :: ts => if c = ' ' then [] :: t :: ts else (c :: t) :: ts

/-- The component after the last path separator, as
`std::filesystem::path(s).filename()`. -/
def baseName (s : List Char) : List Char :=
  s.foldl (fun acc c => if c = '/' then [] else acc.concat c) []

/-- One row of the Modules column: module basename and hooked function
count. -/
structure ModuleView where
  module_name : List Char
  function_count : Nat
deriving DecidableEq

/-- The part of `orbit_client_protos::PresetFile` the data view reads: the
preset's file name and its `path_to_module` map (module path paired with
`function_hashes_size`). -/
structure PresetFile where
  file_name : List Char
  path_to_module : List (List Char × Nat)
deriving DecidableEq

/-- The mutable state of `PresetsDataView`: the presets, the display indices,
the per-preset module views and the filter string. -/
structure PresetsDataView where
  presets_ : List PresetFile
  indices_ : List Nat
  modules_ : List (List ModuleView)
  filter_ : List Char
deriving DecidableEq

/-- `PresetsDataView::OnDataChanged`: resize and rebuild `indices_` to the
identity and `modules_` from each preset's `path_to_module`.  The final
`DataView::OnDataChanged()` call is outside this translation unit and does
not touch these fields. -/
def OnDataChanged (dv : PresetsDataView) : PresetsDataView :=
  { dv with
      indices_ := List.range dv.presets_.length
      modules_ := dv.presets_.map fun p =>
        p.path_to_module.map fun q =>
          { module_name := baseName q.1, function_count := q.2 } }

/-- `PresetsDataView::DoFilter`: keep, in order, the indices of the presets
whose lowercased file name (basename) contains every space-separated token
of the lowercased filter string. -/
def DoFilter (dv : PresetsDataView) : PresetsDataView :=
  let tokens := splitSp (toLowerL dv.filter_)
  { dv with
      indices_ := (List.range dv.presets_.length).filter fun i =>
        (dv.presets_.get? i).any fun p =>
          tokens.all fun t => findSub (toLowerL (baseName p.file_name)) t }

/-- A context-menu action of `PresetsDataView::OnContextMenu`:
"Load Preset", "Delete Preset", or anything handled by the base class. -/
inductive MenuAction where
  | loadPreset
  | deletePreset
  | other

/-- `PresetsDataView::OnContextMenu`.  `removeOk` is the file-system oracle
for `remove(filename) == 0`.  The Bool result records whether an error was
reported to the UI.  Loading a preset and the base-class fallback only have
external effects; out-of-bounds row indexing is undefined behaviour in the
source and is modelled as a no-op. -/
def OnContextMenu (removeOk : List Char → Bool) (dv : PresetsDataView)
    (action : MenuAction) (item_indices : List Nat) : PresetsDataView × Bool :=
  match action with
  | .loadPreset => (dv, false)
  | .deletePreset =>
    match item_indices with
    | [row] =>
      match dv.indices_.get? row with
      | none => (dv, false)
      | some pidx =>
        match dv.presets_.get? pidx with
        | none => (dv, false)
        | some preset =>
          if removeOk preset.file_name then
            (OnDataChanged { dv with presets_ := dv.presets_.eraseIdx pidx }, false)
          else (dv, true)
    | _ => (dv, false)
  | .other => (dv, false)

/-! ## CaptureViewElement (CaptureViewElement.h) -/

/-- The fields of `orbit_gl::CaptureViewElement`.  Pointers are opaque
numbers; the 2-D vectors are opaque pairs. -/
structure CaptureViewElement where
  layout_ : Nat
  canvas_ : Nat
  time_graph_ : Nat
  pos_ : Nat × Nat
  size_ : Nat × Nat
  mouse_pos_last_click_ : Nat × Nat
  mouse_pos_cur_ : Nat × Nat
  picking_offset_ : Nat × Nat
  picked_ : Bool
  accessible_interface_ : Nat
deriving DecidableEq

/-- `orbit_gl::CaptureViewElement::Draw`: the base-class implementation
stores the canvas pointer and nothing else. -/
def CaptureViewElement.Draw (e : CaptureViewElement) (canvas : Nat)
    (picking_mode : Nat) (z_offset : Nat) : CaptureViewElement :=
  { e with canvas_ := canvas }

/-! ## Concrete sample inputs used by the witnesses -/

/-- A sample preset file entry. -/
def presetA : PresetFile :=
  { file_name := ['p', '/', 'a', '.', 'o', 'p', 'r'], path_to_module := [] }

/-- A second sample preset file entry. -/
def presetB : PresetFile :=
  { file_name := ['p', '/', 'b', '.', 'o', 'p', 'r'], path_to_module := [] }

/-- A sample data-view state holding the two sample presets. -/
def dvSample : PresetsDataView :=
  { presets_ := [presetA, presetB]
    indices_ := [0, 1]
    modules_ := [[], []]
    filter_ := [] }

end OrbitGl

/-! # Proofs -/

namespace Orbit

/-! ## Word-primitive lemmas -/

theorem peekBytes_length {m : Mem} : ∀ {n a : Nat} {bs : List Nat},
    peekBytes m a n = some bs → bs.length = n := by
  intro n
  induction n with
  | zero =>
    intro a bs h
    simp only [peekBytes, Option.some.injEq] at h
    simp [← h]
  | succ k ih =>
    intro a bs h
    simp only [peekBytes] at h
    split at h
    · next b bs1 h1 h2 =>
      cases h
      simp [ih h2]
    · cases h

theorem peekBytes_mem {m : Mem} : ∀ {n a : Nat} {bs : List Nat},
    peekBytes m a n = some bs → ∀ i, i < n → m (a + i) = bs[i]? := by
  intro n
  induction n with
  | zero => intro a bs _ i hi; omega
  | succ k ih =>
    intro a bs h i hi
    simp only [peekBytes] at h
    split at h
    · next b bs1 h1 h2 =>
      cases h
      cases i with
      | zero => simpa using h1
      | succ j =>
        have := ih h2 j (by omega)
        have hadd : a + 1 + j = a + (j + 1) := by omega
        rw [hadd] at this
        simpa using this
    · cases h

theorem peekBytes_of {m : Mem} : ∀ {bs : List Nat} {a : Nat},
    (∀ i, i < bs.length → m (a + i) = bs[i]?) →
    peekBytes m a bs.length = some bs := by
  intro bs
  induction bs with
  | nil => intro a _; rfl
  | cons b bs ih =>
    intro a h
    have h0 : m a = some b := by simpa using h 0 (by simp)
    have hrest : peekBytes m (a + 1) bs.length = some bs := by
      apply ih
      intro i hi
      have := h (i + 1) (by simpa using hi)
      have hadd : a + (i + 1) = a + 1 + i := by omega
      rw [hadd] at this
      simpa using this
    simp [peekBytes, h0, hrest]

theorem storeBytes_frame : ∀ (bs : List Nat) (m : Mem) (a x : Nat),
    x < a ∨ a + bs.length ≤ x → storeBytes m a bs x = m x := by
  intro bs
  induction bs with
  | nil => intro m a x _; rfl
  | cons b bs ih =>
    intro m a x hx
    simp only [storeBytes]
    rw [ih _ (a + 1) x (by simp at hx ⊢; omega)]
    have hxa : x ≠ a := by simp at hx; omega
    simp [hxa]

theorem storeBytes_get : ∀ (bs : List Nat) (m : Mem) (a i : Nat), i < bs.length →
    storeBytes m a bs (a + i) = bs[i]? := by
  intro bs
  induction bs with
  | nil => intro m a i hi; simp at hi
  | cons b bs ih =>
    intro m a i hi
    simp only [storeBytes]
    cases i with
    | zero =>
      rw [storeBytes_frame _ _ (a + 1) (a + 0) (by omega)]
      simp
    | succ j =>
      have := ih (fun y => if y = a then some b else m y) (a + 1) j (by simpa using hi)
      have hadd : a + 1 + j = a + (j + 1) := by omega
      rw [hadd] at this
      simpa using this

theorem peekWord_length {m : Mem} {a : Nat} {w : List Nat}
    (h : peekWord m a = some w) : w.length = 8 :=
  peekBytes_length h

theorem peekWord_mem {m : Mem} {a : Nat} {w : List Nat}
    (h : peekWord m a = some w) : ∀ i, i < 8 → m (a + i) = w[i]? :=
  peekBytes_mem h

theorem pokeWord_some {m m' : Mem} {a : Nat} {w : List Nat}
    (h : pokeWord m a w = some m') :
    m' = storeBytes m a w ∧ ∃ w0, peekWord m a = some w0 ∧ w0.length = 8 := by
  unfold pokeWord at h
  split at h
  · cases h
  · next w0 hw0 =>
    cases h
    exact ⟨rfl, w0, hw0, peekWord_length hw0⟩

theorem pokeWord_frame {m m' : Mem} {a : Nat} {w : List Nat}
    (h : pokeWord m a w = some m') :
    ∀ x, x < a ∨ a + w.length ≤ x → m' x = m x := by
  intro x hx
  rw [(pokeWord_some h).1]
  exact storeBytes_frame w m a x hx

theorem pokeWord_get {m m' : Mem} {a : Nat} {w : List Nat}
    (h : pokeWord m a w = some m') :
    ∀ i, i < w.length → m' (a + i) = w[i]? := by
  intro i hi
  rw [(pokeWord_some h).1]
  exact storeBytes_get w m a i hi

theorem pokeWord_peek {m m' : Mem} {a : Nat} {w : List Nat}
    (h : pokeWord m a w = some m') (hlen : w.length = 8) :
    peekWord m' a = some w := by
  have : peekBytes m' a w.length = some w :=
    peekBytes_of (fun i hi => pokeWord_get h i hi)
  rw [hlen] at this
  exact this

/-! ## Write-loop lemmas -/

theorem writeF_frame : ∀ (f : Nat) (m : Mem) (a : Nat) (bs : List Nat) (w x : Nat),
    x < a ∨ a + bs.length ≤ x → (writeBytesF f m a bs w).1 x = m x := by
  intro f
  induction f with
  | zero =>
    intro m a bs w x _
    cases bs <;> rfl
  | succ f ih =>
    intro m a bs w x hx
    cases bs with
    | nil => rfl
    | cons b bs =>
      simp only [writeBytesF]
      split
      · next h8 =>
        cases hp : pokeWord m a ((b :: bs).take 8) with
        | none => rfl
        | some m1 =>
          simp only
          have hlen : ((b :: bs).take 8).length = 8 := by
            simp only [List.length_take, List.length_cons]
            simp only [List.length_cons] at h8
            omega
          rw [ih m1 (a + 8) ((b :: bs).drop 8) (w + 8) x (by
            simp only [List.length_drop, List.length_cons]
            simp only [List.length_cons] at hx
            omega)]
          apply pokeWord_frame hp
          rw [hlen]
          simp only [List.length_cons] at hx h8
          omega
      · next h8 =>
        cases hq : peekWord m a with
        | none => rfl
        | some w0 =>
          simp only
          cases hp : pokeWord m a ((b :: bs) ++ w0.drop (b :: bs).length) with
          | none => rfl
          | some m1 =>
            simp only
            have hw0 : w0.length = 8 := peekWord_length hq
            have hmerged : ((b :: bs) ++ w0.drop (b :: bs).length).length = 8 := by
              simp only [List.length_append, List.length_drop, List.length_cons] at *
              omega
            rcases hx with hx | hx
            · exact pokeWord_frame hp x (Or.inl hx)
            · by_cases hx8 : a + 8 ≤ x
              · exact pokeWord_frame hp x (Or.inr (by omega))
              · -- inside the trailing word, beyond the supplied bytes: the
                -- merged word carries the original memory there
                have hxeq : x = a + (x - a) := by omega
                rw [hxeq, pokeWord_get hp (x - a) (by omega)]
                rw [List.getElem?_append_right (by
                  simp only [List.length_cons] at hx ⊢
                  omega)]
                rw [List.getElem?_drop]
                rw [show (b :: bs).length + (x - a - (b :: bs).length) = x - a by
                  simp only [List.length_cons] at hx ⊢
                  omega]
                exact (peekWord_mem hq (x - a) (by omega)).symm

theorem writeF_ok_content : ∀ (f : Nat) (m m' : Mem) (a : Nat) (bs : List Nat) (w : Nat),
    writeBytesF f m a bs w = (m', .ok) → ∀ i, i < bs.length → m' (a + i) = bs[i]? := by
  intro f
  induction f with
  | zero =>
    intro m m' a bs w h i hi
    cases bs with
    | nil => simp at hi
    | cons b bs => simp [writeBytesF] at h
  | succ f ih =>
    intro m m' a bs w h i hi
    cases bs with
    | nil => simp at hi
    | cons b bs =>
      simp only [writeBytesF] at h
      split at h
      · next h8 =>
        split at h
        · simp at h
        · next m1 hp =>
          simp only [List.length_cons] at h8 hi
          have hlen : ((b :: bs).take 8).length = 8 := by
            simp only [List.length_take, List.length_cons]
            omega
          by_cases hi8 : i < 8
          · have hfr : m' (a + i) = m1 (a + i) := by
              have hf := writeF_frame f m1 (a + 8) ((b :: bs).drop 8) (w + 8) (a + i)
                (Or.inl (by omega))
              rw [h] at hf
              exact hf
            rw [hfr, pokeWord_get hp i (by omega)]
            exact List.getElem?_take_of_lt hi8
          · have hc := ih m1 m' (a + 8) ((b :: bs).drop 8) (w + 8) h (i - 8) (by
              simp only [List.length_drop, List.length_cons]
              omega)
            rw [show a + 8 + (i - 8) = a + i by omega] at hc
            rw [hc, List.getElem?_drop]
            rw [show 8 + (i - 8) = i by omega]
      · next h8 =>
        split at h
        · simp at h
        · next w0 hq =>
          split at h
          · simp at h
          · next m1 hp =>
            have hw0 : w0.length = 8 := peekWord_length hq
            have hm : m1 = m' := by
              have := congrArg Prod.fst h
              simpa using this
            subst hm
            rw [pokeWord_get hp i (by
              simp only [List.length_append, List.length_drop, List.length_cons] at *
              omega)]
            exact List.getElem?_append_left hi

theorem writeF_partial : ∀ (f : Nat) (m m' : Mem) (a : Nat) (bs : List Nat) (w k : Nat),
    writeBytesF f m a bs w = (m', .partialWrite k) →
    w ≤ k ∧ 8 ∣ (k - w) ∧ k - w < bs.length ∧
    (∀ i, i < k - w → m' (a + i) = bs[i]?) ∧
    (∀ x, a + (k - w) ≤ x → m' x = m x) := by
  intro f
  induction f with
  | zero =>
    intro m m' a bs w k h
    cases bs with
    | nil => simp [writeBytesF] at h
    | cons b bs =>
      simp only [writeBytesF, Prod.mk.injEq, WStatus.partialWrite.injEq] at h
      obtain ⟨hm, hk⟩ := h
      subst hm; subst hk
      refine ⟨le_refl w, by simp, by simp, ?_, ?_⟩
      · intro i hi; omega
      · intro x _; rfl
  | succ f ih =>
    intro m m' a bs w k h
    cases bs with
    | nil => simp [writeBytesF] at h
    | cons b bs =>
      simp only [writeBytesF] at h
      split at h
      · next h8 =>
        split at h
        · next hp =>
          simp only [Prod.mk.injEq, WStatus.partialWrite.injEq] at h
          obtain ⟨hm, hk⟩ := h
          subst hm; subst hk
          refine ⟨le_refl w, by simp, by simp, ?_, ?_⟩
          · intro i hi; omega
          · intro x _; rfl
        · next m1 hp =>
          simp only [List.length_cons] at h8
          obtain ⟨hwk, hdvd, hlt, hcont, hfr⟩ := ih m1 m' (a + 8) ((b :: bs).drop 8) (w + 8) k h
          simp only [List.length_drop, List.length_cons] at hlt
          refine ⟨by omega, ?_, by simp only [List.length_cons]; omega, ?_, ?_⟩
          · obtain ⟨t, ht⟩ := hdvd
            exact ⟨t + 1, by omega⟩
          · intro i hi
            by_cases hi8 : i < 8
            · have hfrb : m' (a + i) = m1 (a + i) := by
                have hf := writeF_frame f m1 (a + 8) ((b :: bs).drop 8) (w + 8) (a + i)
                  (Or.inl (by omega))
                rw [h] at hf
                exact hf
              rw [hfrb, pokeWord_get hp i (by
                simp only [List.length_take, List.length_cons]
                omega)]
              exact List.getElem?_take_of_lt hi8
            · have hc := hcont (i - 8) (by omega)
              rw [show a + 8 + (i - 8) = a + i by omega] at hc
              rw [hc, List.getElem?_drop]
              rw [show 8 + (i - 8) = i by omega]
          · intro x hx
            have hf := hfr x (by omega)
            rw [hf]
            apply pokeWord_frame hp
            right
            simp only [List.length_take, List.length_cons]
            omega
      · next h8 =>
        split at h
        · next hq =>
          simp only [Prod.mk.injEq, WStatus.partialWrite.injEq] at h
          obtain ⟨hm, hk⟩ := h
          subst hm; subst hk
          refine ⟨le_refl w, by simp, by simp, ?_, ?_⟩
          · intro i hi; omega
          · intro x _; rfl
        · next w0 hq =>
          split at h
          · next hp =>
            simp only [Prod.mk.injEq, WStatus.partialWrite.injEq] at h
            obtain ⟨hm, hk⟩ := h
            subst hm; subst hk
            refine ⟨le_refl w, by simp, by simp, ?_, ?_⟩
            · intro i hi; omega
            · intro x _; rfl
          · next m1 hp =>
            simp at h

theorem writeF_read : ∀ (f : Nat) (m m' : Mem) (a : Nat) (bs : List Nat) (w : Nat),
    writeBytesF f m a bs w = (m', .ok) →
    ∀ (f2 : Nat) (acc : List Nat), bs.length ≤ f2 →
    readBytesF f2 m' a bs.length acc = .ok (acc ++ bs) := by
  intro f
  induction f with
  | zero =>
    intro m m' a bs w h f2 acc hf2
    cases bs with
    | nil =>
      simp only [writeBytesF, Prod.mk.injEq] at h
      obtain ⟨hm, -⟩ := h
      subst hm
      cases f2 <;> simp [readBytesF]
    | cons b bs => simp [writeBytesF] at h
  | succ f ih =>
    intro m m' a bs w h f2 acc hf2
    cases bs with
    | nil =>
      simp only [writeBytesF, Prod.mk.injEq] at h
      obtain ⟨hm, -⟩ := h
      subst hm
      cases f2 <;> simp [readBytesF]
    | cons b bs =>
      simp only [writeBytesF] at h
      split at h
      · next h8 =>
        split at h
        · simp at h
        · next m1 hp =>
          simp only [List.length_cons] at h8 hf2 ⊢
          cases f2 with
          | zero => omega
          | succ f2 =>
            have hlen : ((b :: bs).take 8).length = 8 := by
              simp only [List.length_take, List.length_cons]
              omega
            have hpk : peekWord m' a = some ((b :: bs).take 8) := by
              have hcont : ∀ i, i < ((b :: bs).take 8).length →
                  m' (a + i) = ((b :: bs).take 8)[i]? := by
                intro i hi
                rw [hlen] at hi
                have hfb : m' (a + i) = m1 (a + i) := by
                  have hf := writeF_frame f m1 (a + 8) ((b :: bs).drop 8) (w + 8) (a + i)
                    (Or.inl (by omega))
                  rw [h] at hf
                  exact hf
                rw [hfb]
                exact pokeWord_get hp i (by omega)
              have := peekBytes_of hcont
              rw [hlen] at this
              exact this
            simp only [readBytesF, hpk]
            rw [if_neg (by omega)]
            have hrec := ih m1 m' (a + 8) ((b :: bs).drop 8) (w + 8) h f2
              (acc ++ (b :: bs).take 8) (by
                simp only [List.length_drop, List.length_cons]
                omega)
            simp only [List.length_drop, List.length_cons] at hrec
            rw [show bs.length + 1 - 8 = bs.length + 1 - 8 from rfl]
            rw [hrec, List.append_assoc, List.take_append_drop]
      · next h8 =>
        split at h
        · simp at h
        · next w0 hq =>
          split at h
          · simp at h
          · next m1 hp =>
            have hm : m1 = m' := by
              have := congrArg Prod.fst h
              simpa using this
            subst hm
            have hw0 : w0.length = 8 := peekWord_length hq
            have hmerged : ((b :: bs) ++ w0.drop (b :: bs).length).length = 8 := by
              simp only [List.length_append, List.length_drop, List.length_cons] at *
              omega
            simp only [List.length_cons] at h8 hf2 ⊢
            cases f2 with
            | zero => omega
            | succ f2 =>
              have hpk : peekWord m1 a = some ((b :: bs) ++ w0.drop (b :: bs).length) :=
                pokeWord_peek hp hmerged
              simp only [readBytesF, hpk]
              rw [if_pos (by omega)]
              rw [show bs.length + 1 = (b :: bs).length from by simp]
              rw [List.take_left]

theorem readF_partial : ∀ (f : Nat) (m : Mem) (a n : Nat) (acc bs : List Nat),
    readBytesF f m a n acc = .partialRead bs →
    ∃ t, bs = acc ++ t ∧ t.length < n ∧ 8 ∣ t.length ∧
      (∀ i, i < t.length → m (a + i) = t[i]?) ∧
      peekWord m (a + t.length) = none ∧ bs ≠ [] := by
  intro f
  induction f with
  | zero =>
    intro m a n acc bs h
    cases n with
    | zero => simp [readBytesF] at h
    | succ n => simp [readBytesF] at h
  | succ f ih =>
    intro m a n acc bs h
    cases n with
    | zero => simp [readBytesF] at h
    | succ n =>
      simp only [readBytesF] at h
      split at h
      · next hq =>
        split at h
        · cases h
        · next hacc =>
          cases h
          refine ⟨[], by simp, by simp, by simp, by intro i hi; simp at hi, ?_, hacc⟩
          simpa using hq
      · next w hq =>
        split at h
        · cases h
        · next h8 =>
          obtain ⟨t1, hbs, hlen, hdvd, hcont, hpk, hne⟩ := ih m (a + 8) (n + 1 - 8) (acc ++ w) bs h
          have hw : w.length = 8 := peekWord_length hq
          refine ⟨w ++ t1, by rw [hbs, List.append_assoc], ?_, ?_, ?_, ?_, hne⟩
          · simp only [List.length_append, hw]
            omega
          · simp only [List.length_append, hw]
            obtain ⟨u, hu⟩ := hdvd
            exact ⟨u + 1, by omega⟩
          · intro i hi
            simp only [List.length_append, hw] at hi
            by_cases hi8 : i < 8
            · rw [peekWord_mem hq i hi8]
              exact (List.getElem?_append_left (by omega)).symm
            · have hc := hcont (i - 8) (by omega)
              rw [show a + 8 + (i - 8) = a + i by omega] at hc
              rw [hc, List.getElem?_append_right (by omega), hw]
          · simp only [List.length_append, hw]
            rw [show a + (8 + t1.length) = a + 8 + t1.length by omega]
            exact hpk

theorem writeF_not_error : ∀ (f : Nat) (m : Mem) (a : Nat) (bs : List Nat) (w : Nat),
    (writeBytesF f m a bs w).2 = .ok ∨ ∃ k, (writeBytesF f m a bs w).2 = .partialWrite k := by
  intro f
  induction f with
  | zero =>
    intro m a bs w
    cases bs with
    | nil => left; rfl
    | cons b bs => right; exact ⟨w, rfl⟩
  | succ f ih =>
    intro m a bs w
    cases bs with
    | nil => left; rfl
    | cons b bs =>
      simp only [writeBytesF]
      split
      · cases hp : pokeWord m a ((b :: bs).take 8) with
        | none => right; exact ⟨w, rfl⟩
        | some m1 => exact ih m1 (a + 8) ((b :: bs).drop 8) (w + 8)
      · cases hq : peekWord m a with
        | none => right; exact ⟨w, rfl⟩
        | some w0 =>
          simp only
          cases hp : pokeWord m a ((b :: bs) ++ w0.drop (b :: bs).length) with
          | none => right; exact ⟨w, rfl⟩
          | some m1 => left; rfl

/-! ## Claim C2 -/

/-- C2: for every non-empty byte sequence `B` and every address range of
length `|B|` inside a region previously obtained from a successful
`AllocateInTracee`, a successful `Write(session, address, B)` followed by
`Read(session, address, |B|)` returns exactly `B`. -/
theorem write_then_read_returns_written
    (s s1 s2 : Session) (size prot base a : Nat) (B : List Nat)
    (hB : B ≠ [])
    (halloc : AllocateInTracee s size prot = (s1, .ok base))
    (hlo : base ≤ a) (hhi : a + B.length ≤ base + pageCeil size)
    (hw : Write s1 a B = (s2, .ok)) :
    Read s2 a B.length = .ok B := by
  simp only [Write] at hw
  split at hw
  · next hu =>
    have hs2 : { s1 with mem := (writeBytes s1.mem a B).1 } = s2 := by
      have := congrArg Prod.fst hw
      simpa using this
    have hst : (writeBytes s1.mem a B).2 = WStatus.ok := by
      have := congrArg Prod.snd hw
      simpa using this
    have hws : writeBytesF B.length s1.mem a B 0 = ((writeBytes s1.mem a B).1, WStatus.ok) := by
      rw [← hst]
      rfl
    have hu2 : s2.usable = true := by rw [← hs2]; exact hu
    have hm2 : s2.mem = (writeBytes s1.mem a B).1 := by rw [← hs2]
    simp only [Read, hu2, if_pos]
    rw [hm2]
    have := writeF_read B.length s1.mem (writeBytes s1.mem a B).1 a B 0 hws
      B.length [] (le_refl _)
    simpa [readBytes] using this
  · simp at hw

/-- Witness for C2 at a concrete allocation, write and read. -/
theorem write_then_read_returns_written_witness :
    (Write (AllocateInTracee sess0 16 3).1 0 [1, 2, 3]).2 = WStatus.ok ∧
    Read (Write (AllocateInTracee sess0 16 3).1 0 [1, 2, 3]).1 0 3 = .ok [1, 2, 3] := by
  constructor
  · rfl
  · exact write_then_read_returns_written sess0 (AllocateInTracee sess0 16 3).1
      (Write (AllocateInTracee sess0 16 3).1 0 [1, 2, 3]).1 16 3 0 0 [1, 2, 3]
      (by simp) rfl (by omega) (by decide) rfl

/-! ## Claim C4 -/

/-- C4: for every `Write` whose length is not a multiple of the word size,
the final partial word equals the existing word overlaid with only the
supplied trailing bytes — every byte at or beyond the supplied length is
preserved, never zeroed; and every multi-word `Write` either transfers all
words (every supplied byte lands in memory) or reports via `PartialWrite`
the exact number of bytes committed, each transferred word being whole. -/
theorem write_word_granularity
    (s s2 : Session) (a : Nat) (bs : List Nat) (st : WStatus)
    (hw : Write s a bs = (s2, st)) :
    (st = .ok →
      (∀ i, i < bs.length → s2.mem (a + i) = bs[i]?) ∧
      (∀ x, x < a ∨ a + bs.length ≤ x → s2.mem x = s.mem x)) ∧
    (∀ k, st = .partialWrite k →
      8 ∣ k ∧ k < bs.length ∧
      (∀ i, i < k → s2.mem (a + i) = bs[i]?) ∧
      (∀ x, a + k ≤ x → s2.mem x = s.mem x)) ∧
    (s.usable = true → st = .ok ∨ ∃ k, st = .partialWrite k) := by
  simp only [Write] at hw
  split at hw
  · next hu =>
    have hs2 : { s with mem := (writeBytes s.mem a bs).1 } = s2 := by
      have := congrArg Prod.fst hw
      simpa using this
    have hst : (writeBytes s.mem a bs).2 = st := by
      have := congrArg Prod.snd hw
      simpa using this
    have hm2 : s2.mem = (writeBytes s.mem a bs).1 := by rw [← hs2]
    refine ⟨?_, ?_, ?_⟩
    · intro hok
      have hws : writeBytesF bs.length s.mem a bs 0 = ((writeBytes s.mem a bs).1, WStatus.ok) := by
        rw [← hok, ← hst]
        rfl
      constructor
      · intro i hi
        rw [hm2]
        exact writeF_ok_content bs.length s.mem (writeBytes s.mem a bs).1 a bs 0 hws i hi
      · intro x hx
        rw [hm2]
        exact writeF_frame bs.length s.mem a bs 0 x hx
    · intro k hk
      have hws : writeBytesF bs.length s.mem a bs 0
          = ((writeBytes s.mem a bs).1, WStatus.partialWrite k) := by
        rw [← hk, ← hst]
        rfl
      obtain ⟨-, hdvd, hlt, hcont, hfr⟩ :=
        writeF_partial bs.length s.mem (writeBytes s.mem a bs).1 a bs 0 k hws
      simp only [Nat.sub_zero] at hdvd hlt hcont hfr
      exact ⟨hdvd, hlt, fun i hi => by rw [hm2]; exact hcont i hi,
        fun x hx => by rw [hm2]; exact hfr x hx⟩
    · intro _
      rw [← hst]
      exact writeF_not_error bs.length s.mem a bs 0
  · next hu =>
    have hs2 : s = s2 := by
      have := congrArg Prod.fst hw
      simpa using this
    have hst : WStatus.error = st := by
      have := congrArg Prod.snd hw
      simpa using this
    subst hs2
    refine ⟨?_, ?_, ?_⟩
    · intro hok; rw [← hst] at hok; cases hok
    · intro k hk; rw [← hst] at hk; cases hk
    · intro hu2; simp [hu2] at hu

/-- Witness for C4 at a concrete partial write: only the first word of
memory is mapped, a 16-byte write commits exactly 8 bytes. -/
theorem write_word_granularity_witness :
    (Write sessMem8 0 [10, 11, 12, 13, 14, 15, 16, 17, 18, 19, 20, 21, 22, 23, 24, 25]).2
      = WStatus.partialWrite 8 ∧
    (8 ∣ 8 ∧ 8 < 16 ∧
      (∀ i, i < 8 →
        (Write sessMem8 0 [10, 11, 12, 13, 14, 15, 16, 17, 18, 19, 20, 21, 22, 23, 24, 25]).1.mem
          (0 + i) = [10, 11, 12, 13, 14, 15, 16, 17, 18, 19, 20, 21, 22, 23, 24, 25][i]?) ∧
      (∀ x, 0 + 8 ≤ x →
        (Write sessMem8 0 [10, 11, 12, 13, 14, 15, 16, 17, 18, 19, 20, 21, 22, 23, 24, 25]).1.mem
          x = sessMem8.mem x)) := by
  constructor
  · rfl
  · have h := write_word_granularity sessMem8
      (Write sessMem8 0 [10, 11, 12, 13, 14, 15, 16, 17, 18, 19, 20, 21, 22, 23, 24, 25]).1
      0 [10, 11, 12, 13, 14, 15, 16, 17, 18, 19, 20, 21, 22, 23, 24, 25]
      (WStatus.partialWrite 8) rfl
    have h2 := h.2.1 8 rfl
    simpa using h2

/-! ## Claim C6 -/

/-- C6: every `Read` that fails after transferring some bytes returns
`PartialRead` carrying exactly the prefix read so far — each returned byte
equals the byte actually in memory (never a fabricated zero), the prefix is
shorter than the request (never a silent truncation of a "successful"
read), and the next word really is unreadable. -/
theorem read_partial_exact_prefix
    (s : Session) (a n : Nat) (bs : List Nat)
    (hr : Read s a n = .partialRead bs) :
    bs ≠ [] ∧ bs.length < n ∧ 8 ∣ bs.length ∧
    (∀ i, i < bs.length → s.mem (a + i) = bs[i]?) ∧
    peekWord s.mem (a + bs.length) = none := by
  simp only [Read] at hr
  split at hr
  · obtain ⟨t, hbs, hlen, hdvd, hcont, hpk, hne⟩ :=
      readF_partial n s.mem a n [] bs hr
    simp only [List.nil_append] at hbs
    subst hbs
    exact ⟨hne, hlen, hdvd, hcont, hpk⟩
  · cases hr

/-- Witness for C6: with only the first word mapped, a 16-byte read returns
exactly the first word as a partial result. -/
theorem read_partial_exact_prefix_witness :
    Read sessMem8 0 16 = .partialRead [0, 1, 2, 3, 4, 5, 6, 7] ∧
    ([0, 1, 2, 3, 4, 5, 6, 7] ≠ ([] : List Nat) ∧ (8:Nat) < 16 ∧ 8 ∣ 8 ∧
      peekWord sessMem8.mem (0 + 8) = none) := by
  constructor
  · rfl
  · have h := read_partial_exact_prefix sessMem8 0 16 [0, 1, 2, 3, 4, 5, 6, 7] rfl
    exact ⟨h.1, by simpa using h.2.1, by simpa using h.2.2.1, by simpa using h.2.2.2.2⟩

/-! ## Register-state lemmas -/

theorem Capture_ok_elim {s : Session} {tid : Nat} {r : RegisterSet}
    (h : Capture s tid = .ok r) :
    s.usable = true ∧ ∃ th, s.threads tid = some th ∧ th.stopped = true ∧ th.regs = r := by
  simp only [Capture] at h
  split at h
  · next hu =>
    refine ⟨hu, ?_⟩
    split at h
    · cases h
    · next th hth =>
      split at h
      · next hstop =>
        cases h
        exact ⟨th, hth, hstop, rfl⟩
      · cases h
  · cases h

/-! ## Claim C1 -/

/-- C1: for every successful `ExecuteInTracee` on a stopped thread whose
called function deterministically returns the constant `K`, the operation
returns exactly `K`, and a subsequent `Capture` yields the pre-call register
set back — the restore is verbatim, so in particular every field outside
the return-value register matches the pre-call capture (the thread is left
exactly as found). -/
theorem execute_returns_constant_and_restores
    (s s' : Session) (tid fa K v : Nat) (args : List Nat) (r0 : RegisterSet)
    (hcap : Capture s tid = .ok r0)
    (hK : ∀ as, s.program fa as = K)
    (hex : ExecuteInTracee s tid fa args = (s', .ok v)) :
    v = K ∧ Capture s' tid = .ok r0 := by
  obtain ⟨hu, th, hth, hstop, hregs⟩ := Capture_ok_elim hcap
  simp only [ExecuteInTracee, hcap] at hex
  by_cases hf1 : s.applyFaultAt s.opCount
  · simp only [Apply, hu, if_true, hth, hstop, hf1, if_pos] at hex
    exact absurd (congrArg Prod.snd hex) (by simp)
  · simp only [Apply, hu, if_true, hth, hstop, hf1, if_neg, Bool.false_eq_true,
      if_false, Capture] at hex
    by_cases hf2 : s.applyFaultAt (s.opCount + 1)
    · simp only [hf2, if_true] at hex
      exact absurd (congrArg Prod.snd hex) (by simp)
    · simp only [hf2, Bool.false_eq_true, if_false] at hex
      have hv : v = K := by
        have := congrArg Prod.snd hex
        simp at this
        rw [← this]
        exact hK args
      have hs' := congrArg Prod.fst hex
      simp only at hs'
      refine ⟨hv, ?_⟩
      rw [← hs']
      simp [Capture, hu]

/-- Witness for C1: in the sample session every function returns 42; the
remote call reports 42 and the thread's registers read back unchanged. -/
theorem execute_returns_constant_and_restores_witness :
    Capture sess0 0 = .ok regs0 ∧
    (42 = 42 ∧ Capture (ExecuteInTracee sess0 0 5 []).1 0 = .ok regs0) := by
  refine ⟨rfl, ?_⟩
  exact execute_returns_constant_and_restores sess0 (ExecuteInTracee sess0 0 5 []).1
    0 5 42 42 [] regs0 rfl (fun _ => rfl) rfl

/-! ## Claim C5 -/

/-- C5: on a session on which `DetachAndContinue` has already completed,
calling `DetachAndContinue` again is a no-op — the session is returned
unchanged with the explicit already-detached result; the result type has no
error case and no resource is released twice (the state, including the
thread bookkeeping, is exactly the same). -/
theorem detach_idempotent (s : Session) :
    DetachAndContinue (DetachAndContinue s).1
      = ((DetachAndContinue s).1, DetachRes.alreadyDetached) := by
  by_cases h : s.attached = true
  · simp [DetachAndContinue, h]
  · simp [DetachAndContinue, h]

/-! ## Claim C7 -/

theorem runOp_unusable {s : Session} (h : s.usable = false) :
    ∀ op, runOp s op = (s, false) := by
  intro op
  cases op with
  | captureOp tid => simp [runOp, Capture, h, isOkE]
  | applyOp tid r => simp [runOp, Apply, h, isOkE]
  | readOp a n => simp [runOp, Read, h, isOkR]
  | writeOp a bs => simp [runOp, Write, h, isOkW]
  | execOp tid fa args => simp [runOp, ExecuteInTracee, Capture, h, isOkE]
  | allocOp size prot => simp [runOp, AllocateInTracee, h, isOkE]
  | freeOp a n => simp [runOp, FreeInTracee, h, isOkE]

theorem runTrace_unusable {s : Session} (h : s.usable = false) :
    ∀ ops, (runTrace s ops).all (fun b => !b) = true := by
  intro ops
  induction ops with
  | nil => rfl
  | cons op ops ih =>
    simp only [runTrace, runOp_unusable h op, List.all_cons]
    simpa using ih

/-- C7: once any `Apply` (including the restore step of a remote call, which
reports its failure through this same operation) returns
`RegisterRestoreFailed`, the session is marked unusable and no subsequent
engine operation on that session — capture, apply, read, write, remote
call, allocate or free — ever succeeds; only a fresh attach producing a new
session restores service. -/
theorem restore_failed_poisons_session
    (s s' : Session) (tid : Nat) (r : RegisterSet)
    (h : Apply s tid r = (s', .error .registerRestoreFailed)) :
    s'.usable = false ∧ ∀ ops, (runTrace s' ops).all (fun b => !b) = true := by
  have hu : s'.usable = false := by
    simp only [Apply] at h
    split at h
    · split at h
      · exact absurd (congrArg Prod.snd h) (by simp)
      · split at h
        · split at h
          · have hfst := congrArg Prod.fst h
            simp only at hfst
            rw [← hfst]
          · exact absurd (congrArg Prod.snd h) (by simp)
        · exact absurd (congrArg Prod.snd h) (by simp)
    · exact absurd (congrArg Prod.snd h) (by simp)
  exact ⟨hu, runTrace_unusable hu⟩

/-- Witness for C7: the faulting sample session is poisoned by a failed
register write, and a concrete trace of operations afterwards all fail. -/
theorem restore_failed_poisons_session_witness :
    (Apply sessFault 0 regs0).2 = .error .registerRestoreFailed ∧
    (Apply sessFault 0 regs0).1.usable = false ∧
    (runTrace (Apply sessFault 0 regs0).1
      [.captureOp 0, .readOp 0 8, .allocOp 4096 3]).all (fun b => !b) = true := by
  have h := restore_failed_poisons_session sessFault (Apply sessFault 0 regs0).1
    0 regs0 rfl
  exact ⟨rfl, h.1, h.2 [.captureOp 0, .readOp 0 8, .allocOp 4096 3]⟩

/-! ## Claim C3 -/

theorem attachLoop_error : ∀ (b : Nat) (live : Nat → List Nat) (att : List Nat) (k : Nat)
    (e : Err), attachLoop live att k b = .error e → e = .attachTimeout := by
  intro b
  induction b with
  | zero =>
    intro live att k e h
    cases h
    rfl
  | succ b ih =>
    intro live att k e h
    simp only [attachLoop] at h
    split at h
    · cases h
    · exact ih live _ (k + 1) e h

theorem attachLoop_ok : ∀ (b : Nat) (live : Nat → List Nat) (att : List Nat) (k : Nat)
    (ts : List Nat), attachLoop live att k b = .ok ts →
    ∃ j, k ≤ j ∧ j < k + b ∧ ∀ t, t ∈ live j ↔ t ∈ ts := by
  intro b
  induction b with
  | zero =>
    intro live att k ts h
    cases h
  | succ b ih =>
    intro live att k ts h
    simp only [attachLoop] at h
    split at h
    · next hfix =>
      cases h
      obtain ⟨hfresh, hgone⟩ := hfix
      refine ⟨k, le_refl k, by omega, fun t => ?_⟩
      constructor
      · intro ht
        by_contra hmem
        have hin : t ∈ (live k).filter fun t => decide (t ∉ att) := by
          rw [List.mem_filter]
          exact ⟨ht, by simpa using hmem⟩
        rw [hfresh] at hin
        cases hin
      · intro ht
        by_contra hmem
        have hin : t ∈ att.filter fun t => decide (t ∉ live k) := by
          rw [List.mem_filter]
          exact ⟨ht, by simpa using hmem⟩
        rw [hgone] at hin
        cases hin
    · obtain ⟨j, hj1, hj2, hiff⟩ := ih live _ (k + 1) ts h
      exact ⟨j, by omega, by omega, hiff⟩

/-- C3: `AttachAndStop` repeats the re-enumerate/attach/drop cycle and
always terminates (it is a total function), either at a fixed point — at
some enumeration instant `j` within the retry budget the session's
attached-and-stopped thread set agrees exactly with the live thread set, so
no live thread is silently omitted — or with the error `AttachTimeout`
after the bounded number of retries. -/
theorem attach_converges_or_times_out (env : TargetEnv) (budget : Nat) :
    AttachAndStop env budget = .error .attachTimeout ∨
    ∃ s j, AttachAndStop env budget = .ok s ∧ j < budget ∧
      ∀ t, t ∈ env.live j ↔ ∃ th, s.threads t = some th ∧ th.stopped = true := by
  cases hres : attachLoop env.live [] 0 budget with
  | error e =>
    left
    have he : e = .attachTimeout := attachLoop_error budget env.live [] 0 e hres
    subst he
    simp [AttachAndStop, hres]
  | ok ts =>
    right
    obtain ⟨j, -, hj2, hiff⟩ := attachLoop_ok budget env.live [] 0 ts hres
    refine ⟨{ attached := true
              usable := true
              threads := fun t =>
                if t ∈ ts then some { regs := env.initRegs t, stopped := true } else none
              mem := env.mem
              program := env.program
              clobber := env.clobber
              applyFaultAt := env.applyFaultAt
              opCount := 0
              nextFree := 0 }, j, ?_, by omega, fun t => ?_⟩
    · simp [AttachAndStop, hres]
    · rw [hiff t]
      by_cases ht : t ∈ ts
      · simp [ht]
      · simp [ht]

end Orbit

namespace OrbitGl

theorem findSub_nil : ∀ s : List Char, findSub s [] = true := by
  intro s
  cases s <;> rfl

/-! ## Claim C9 -/

/-- C9: after `DoFilter`, `indices_` holds, in strictly increasing order,
exactly the indices of the presets whose lowercased file name (basename)
contains every space-separated token of the lowercased filter string; every
stored index is in bounds, and an empty filter selects every preset. -/
theorem doFilter_characterization (dv : PresetsDataView) :
    List.Sorted (· < ·) (DoFilter dv).indices_ ∧
    (∀ i, i ∈ (DoFilter dv).indices_ ↔
      ∃ p, dv.presets_.get? i = some p ∧
        ((splitSp (toLowerL dv.filter_)).all fun t =>
          findSub (toLowerL (baseName p.file_name)) t) = true) ∧
    (∀ i, i ∈ (DoFilter dv).indices_ → i < dv.presets_.length) ∧
    (dv.filter_ = [] → (DoFilter dv).indices_ = List.range dv.presets_.length) := by
  have hD : (DoFilter dv).indices_
      = (List.range dv.presets_.length).filter fun i =>
        (dv.presets_.get? i).any fun p =>
          (splitSp (toLowerL dv.filter_)).all fun t =>
            findSub (toLowerL (baseName p.file_name)) t := rfl
  refine ⟨?_, ?_, ?_, ?_⟩
  · rw [hD]
    exact (List.sorted_lt_range _).sublist (List.filter_sublist _)
  · intro i
    rw [hD, List.mem_filter, List.mem_range]
    constructor
    · rintro ⟨hi, hp⟩
      cases hg : dv.presets_.get? i with
      | none => rw [hg] at hp; cases hp
      | some p =>
        rw [hg] at hp
        exact ⟨p, rfl, by simpa using hp⟩
    · rintro ⟨p, hg, hall⟩
      have hi : i < dv.presets_.length := by
        rcases List.get?_eq_some.mp hg with ⟨h, -⟩
        exact h
      exact ⟨hi, by rw [hg]; simpa using hall⟩
  · intro i hi
    rw [hD, List.mem_filter, List.mem_range] at hi
    exact hi.1
  · intro hfilt
    rw [hD]
    apply List.filter_eq_self.mpr
    intro i hi
    rw [List.mem_range] at hi
    rw [List.get?_eq_get hi]
    rw [hfilt]
    simp [splitSp, toLowerL, findSub_nil]

/-! ## Claim C8 -/

/-- C8: for the "Delete Preset" context-menu action with exactly one
selected row, the presets collection is mutated — the selected entry erased
and the indices and module views rebuilt through `OnDataChanged` — exactly
when deleting the preset's file succeeds; when `remove` fails, `presets_`,
`indices_` and `modules_` are all left unchanged and an error is reported;
with a selection count other than one nothing changes. -/
theorem onContextMenu_delete_characterization
    (removeOk : List Char → Bool) (dv dv' : PresetsDataView) (idxs : List Nat) (err : Bool)
    (hc : OnContextMenu removeOk dv .deletePreset idxs = (dv', err)) :
    (idxs.length ≠ 1 → dv' = dv ∧ err = false) ∧
    (∀ row pidx p, idxs = [row] →
      dv.indices_.get? row = some pidx → dv.presets_.get? pidx = some p →
      (removeOk p.file_name = true →
        dv' = OnDataChanged { dv with presets_ := dv.presets_.eraseIdx pidx } ∧
        dv'.presets_.length + 1 = dv.presets_.length ∧ err = false) ∧
      (removeOk p.file_name = false → dv' = dv ∧ err = true)) := by
  constructor
  · intro hlen
    cases idxs with
    | nil =>
      simp only [OnContextMenu] at hc
      exact ⟨(congrArg Prod.fst hc).symm, (congrArg Prod.snd hc).symm⟩
    | cons a t =>
      cases t with
      | nil => simp at hlen
      | cons b t =>
        simp only [OnContextMenu] at hc
        exact ⟨(congrArg Prod.fst hc).symm, (congrArg Prod.snd hc).symm⟩
  · intro row pidx p hidx h1 h2
    subst hidx
    simp only [OnContextMenu, h1, h2] at hc
    constructor
    · intro hrm
      rw [hrm, if_pos rfl] at hc
      have hdv : OnDataChanged { dv with presets_ := dv.presets_.eraseIdx pidx } = dv' :=
        congrArg Prod.fst hc
      have herr : err = false := (congrArg Prod.snd hc).symm
      have hlt : pidx < dv.presets_.length := by
        rcases List.get?_eq_some.mp h2 with ⟨h, -⟩
        exact h
      refine ⟨hdv.symm, ?_, herr⟩
      rw [← hdv]
      show (dv.presets_.eraseIdx pidx).length + 1 = dv.presets_.length
      rw [List.length_eraseIdx_of_lt hlt]
      omega
    · intro hrm
      rw [hrm] at hc
      simp only [Bool.false_eq_true, if_false] at hc
      exact ⟨(congrArg Prod.fst hc).symm, (congrArg Prod.snd hc).symm⟩

/-- Witness for C8: deleting the first sample preset while the file-system
refuses the removal reports an error and leaves the state unchanged. -/
theorem onContextMenu_delete_witness :
    OnContextMenu (fun _ => false) dvSample .deletePreset [0] = (dvSample, true) := by
  have h := onContextMenu_delete_characterization (fun _ => false) dvSample
    (OnContextMenu (fun _ => false) dvSample .deletePreset [0]).1 [0]
    (OnContextMenu (fun _ => false) dvSample .deletePreset [0]).2 rfl
  have h2 := (h.2 0 0 presetA rfl rfl rfl).2 rfl
  have hpair : OnContextMenu (fun _ => false) dvSample .deletePreset [0]
      = ((OnContextMenu (fun _ => false) dvSample .deletePreset [0]).1,
         (OnContextMenu (fun _ => false) dvSample .deletePreset [0]).2) := rfl
  rw [hpair, h2.1, h2.2]

/-! ## Claim C10 -/

/-- C10: the base-class `CaptureViewElement::Draw` stores the given canvas
pointer in `canvas_` and leaves every other field — `pos_`, `size_`,
`time_graph_`, `layout_`, `picked_`, `accessible_interface_`, the mouse
position fields and the picking offset — unchanged. -/
theorem draw_sets_canvas_only (e : CaptureViewElement) (canvas picking_mode z_offset : Nat) :
    (e.Draw canvas picking_mode z_offset).canvas_ = canvas ∧
    (e.Draw canvas picking_mode z_offset).layout_ = e.layout_ ∧
    (e.Draw canvas picking_mode z_offset).time_graph_ = e.time_graph_ ∧
    (e.Draw canvas picking_mode z_offset).pos_ = e.pos_ ∧
    (e.Draw canvas picking_mode z_offset).size_ = e.size_ ∧
    (e.Draw canvas picking_mode z_offset).mouse_pos_last_click_ = e.mouse_pos_last_click_ ∧
    (e.Draw canvas picking_mode z_offset).mouse_pos_cur_ = e.mouse_pos_cur_ ∧
    (e.Draw canvas picking_mode z_offset).picking_offset_ = e.picking_offset_ ∧
    (e.Draw canvas picking_mode z_offset).picked_ = e.picked_ ∧
    (e.Draw canvas picking_mode z_offset).accessible_interface_ = e.accessible_interface_ :=
  ⟨rfl, rfl, rfl, rfl, rfl, rfl, rfl, rfl, rfl, rfl⟩

end OrbitGl
